import Mathlib

/-!
# Verification of the safe-nd core: Sequence versioning and multi-scheme keys

Shallow embedding of the repository's core data types and operations:

* `src/keys.rs` — the `PublicKey` / `SecretKey` / `Signature` / `Keypair`
  tagged unions over the three schemes (Ed25519, BLS, BLS-share), the
  matched-variant verification dispatch, z-base-32 encoding/decoding, and the
  derivation of a `XorName` identifier from a public key.
* `src/utils.rs` — `verify_signature`, `serialise`/`deserialise`,
  `encode`/`decode` (multibase z-base-32 wrappers).
* The `Sequence` append-only log (`append`, `in_range`, `Version`), whose
  implementation is exercised by `src/data/tests/sequence.rs`.

External collaborators (the ed25519/BLS cryptography provider and the bincode
canonical serializer) are treated as black boxes: native verification and
key-derivation primitives are parameters gathered in a `CryptoProvider`
structure, and byte serialization of the closed enums is modelled as the
evident injective tagged byte encoding.  Machine bytes (`u8`) are modelled as
natural numbers below 256.
-/

namespace SafeNd

/-- A byte list: every element is a valid `u8` value. -/
def IsByteList (l : List Nat) : Prop := ∀ b ∈ l, b < 256

instance (l : List Nat) : Decidable (IsByteList l) :=
  List.decidableBAll _ l

/-- A fixed-length byte string, such as a native key or signature
representation (`[u8; n]` in the source). -/
def Bytes (n : Nat) : Type := {l : List Nat // l.length = n ∧ IsByteList l}

instance (n : Nat) : DecidableEq (Bytes n) :=
  Subtype.instDecidableEq

/-- The error kinds of the repository that the embedded operations can
surface (`Error::SigningKeyTypeMismatch`, `Error::InvalidSignature`,
`Error::FailedToParse` from the crate's error enum; the version-mismatch
condition raised by a guarded `Sequence::append`, modelled from the spec). -/
inductive Error where
  /-- Verification attempted across incompatible key/signature variants. -/
  | signingKeyTypeMismatch : Error
  /-- Matched-variant verification failed cryptographically. -/
  | invalidSignature : Error
  /-- Malformed portable text or payload (`Error::FailedToParse`). -/
  | failedToParse : String → Error
  /-- Modelled from the spec: the append guard did not match the current
  length; carries the current length. -/
  | versionMismatch : Nat → Error
deriving DecidableEq

/-- The three signature schemes of the closed tagged unions in
`src/keys.rs`. -/
inductive Scheme where
  | ed25519 : Scheme
  | bls : Scheme
  | blsShare : Scheme
deriving DecidableEq

/-- `PublicKey` from `src/keys.rs`: a closed tagged union over an Ed25519
public key (32 bytes), a BLS public key (48 bytes), and a BLS public key
share (48 bytes), each represented by its native byte form. -/
inductive PublicKey where
  | ed25519 : Bytes 32 → PublicKey
  | bls : Bytes 48 → PublicKey
  | blsShare : Bytes 48 → PublicKey
deriving DecidableEq

/-- `Signature` from `src/keys.rs`: an Ed25519 signature (64 bytes), a BLS
signature (96 bytes), or a BLS signature share (96 bytes). -/
inductive Signature where
  | ed25519 : Bytes 64 → Signature
  | bls : Bytes 96 → Signature
  | blsShare : Bytes 96 → Signature
deriving DecidableEq

/-- The scheme variant of a public key. -/
def PublicKey.variant : PublicKey → Scheme
  | .ed25519 _ => .ed25519
  | .bls _ => .bls
  | .blsShare _ => .blsShare

/-- The scheme variant of a signature. -/
def Signature.variant : Signature → Scheme
  | .ed25519 _ => .ed25519
  | .bls _ => .bls
  | .blsShare _ => .blsShare

/-- The external cryptography provider (ed25519-dalek and threshold_crypto),
treated as a black box: native per-scheme verification checks and
public-key-from-secret-key derivations. -/
structure CryptoProvider where
  /-- `ed25519_dalek::PublicKey::verify(data, sig).is_ok()`. -/
  ed25519Verify : Bytes 32 → List Nat → Bytes 64 → Bool
  /-- `threshold_crypto::PublicKey::verify(sig, data)`. -/
  blsVerify : Bytes 48 → Bytes 96 → List Nat → Bool
  /-- `threshold_crypto::PublicKeyShare::verify(sig, data)`. -/
  blsShareVerify : Bytes 48 → Bytes 96 → List Nat → Bool
  /-- `ed25519_dalek::PublicKey::from_secret(sec_key)`. -/
  ed25519PublicOfSecret : Bytes 32 → Bytes 32
  /-- `threshold_crypto::SecretKey::public_key()`. -/
  blsPublicOfSecret : Bytes 32 → Bytes 48
  /-- `threshold_crypto::SecretKeyShare::public_key_share()`. -/
  blsSharePublicOfSecret : Bytes 32 → Bytes 48

/-- The native check that `PublicKey::verify` delegates to within a matching
variant pair (`false` on a cross-variant pair, which `verify` never reaches). -/
def nativeVerifies (P : CryptoProvider) : PublicKey → Signature → List Nat → Bool
  | .ed25519 k, .ed25519 s, d => P.ed25519Verify k d s
  | .bls k, .bls s, d => P.blsVerify k s d
  | .blsShare k, .blsShare s, d => P.blsShareVerify k s d
  | _, _, _ => false

/-- `PublicKey::verify` from `src/keys.rs`: matched-variant dispatch.  A
cross-variant pairing returns `Error::SigningKeyTypeMismatch` immediately
(the `_ => return Err(...)` arm); within a matching pair the scheme's native
check decides between `Ok(())` and `Err(Error::InvalidSignature)`. -/
def PublicKey.verify (P : CryptoProvider) (pk : PublicKey) (signature : Signature)
    (data : List Nat) : Except Error Unit :=
  match pk, signature with
  | .ed25519 k, .ed25519 s =>
      if P.ed25519Verify k data s then .ok () else .error .invalidSignature
  | .bls k, .bls s =>
      if P.blsVerify k s data then .ok () else .error .invalidSignature
  | .blsShare k, .blsShare s =>
      if P.blsShareVerify k s data then .ok () else .error .invalidSignature
  | _, _ => .error .signingKeyTypeMismatch

/-- `SecretKey` from `src/keys.rs`: Ed25519 secret key (32 bytes), BLS secret
key (a field element, 32 bytes in serialized form), BLS secret key share. -/
inductive SecretKey where
  | ed25519 : Bytes 32 → SecretKey
  | bls : Bytes 32 → SecretKey
  | blsShare : Bytes 32 → SecretKey
deriving DecidableEq

/-- The scheme variant of a secret key. -/
def SecretKey.variant : SecretKey → Scheme
  | .ed25519 _ => .ed25519
  | .bls _ => .bls
  | .blsShare _ => .blsShare

/-- `SecretKey::public_key` from `src/keys.rs`: derive the corresponding
public key through the scheme's native derivation. -/
def SecretKey.public_key (P : CryptoProvider) : SecretKey → PublicKey
  | .ed25519 k => .ed25519 (P.ed25519PublicOfSecret k)
  | .bls k => .bls (P.blsPublicOfSecret k)
  | .blsShare k => .blsShare (P.blsSharePublicOfSecret k)

/-- `impl From<&SecretKey> for PublicKey` from `src/keys.rs`: delegates to
`SecretKey::public_key`. -/
def publicKeyOfSecretKey (P : CryptoProvider) (sk : SecretKey) : PublicKey :=
  sk.public_key P

/-- `ed25519_dalek::SecretKey::from_bytes`: succeeds exactly on a 32-byte
input (the native length check of the provider). -/
def ed25519SecretFromBytes (l : List Nat) : Option (Bytes 32) :=
  if h : l.length = 32 ∧ IsByteList l then some ⟨l, h⟩ else none

/-- `ed25519_dalek::SecretKey::to_bytes`. -/
def ed25519SecretToBytes (k : Bytes 32) : List Nat := k.1

/-- `impl Clone for SecretKey` from `src/keys.rs`: the Ed25519 arm
reconstructs the key by `from_bytes(to_bytes(..))` (the source unwraps the
result; `none` models the panic on failure), the BLS arms clone natively. -/
def SecretKey.clone : SecretKey → Option SecretKey
  | .ed25519 k => (ed25519SecretFromBytes (ed25519SecretToBytes k)).map .ed25519
  | .bls k => some (.bls k)
  | .blsShare k => some (.blsShare k)

/-- `impl PartialEq for SecretKey` from `src/keys.rs`: Ed25519 keys compare
by `to_bytes()`, BLS keys compare natively, cross-variant pairs are `false`. -/
def SecretKey.eqImpl : SecretKey → SecretKey → Bool
  | .ed25519 a, .ed25519 b => decide (ed25519SecretToBytes a = ed25519SecretToBytes b)
  | .bls a, .bls b => decide (a = b)
  | .blsShare a, .blsShare b => decide (a = b)
  | _, _ => false

/-- `Keypair` from `src/keys.rs`: a secret key bundled with its public key,
per scheme (`ed25519_dalek::Keypair`, `BlsKeypair`, `BlsKeypairShare`). -/
inductive Keypair where
  | ed25519 : Bytes 32 → Bytes 32 → Keypair
  | bls : Bytes 32 → Bytes 48 → Keypair
  | blsShare : Bytes 32 → Bytes 48 → Keypair
deriving DecidableEq

/-- The scheme variant of a keypair. -/
def Keypair.variant : Keypair → Scheme
  | .ed25519 _ _ => .ed25519
  | .bls _ _ => .bls
  | .blsShare _ _ => .blsShare

/-- `Keypair::public_key` from `src/keys.rs`: wrap the stored public half in
the matching `PublicKey` variant. -/
def Keypair.public_key : Keypair → PublicKey
  | .ed25519 _ p => .ed25519 p
  | .bls _ p => .bls p
  | .blsShare _ p => .blsShare p

/-- `ed25519_dalek::Keypair::to_bytes`: secret bytes followed by public
bytes (64 bytes). -/
def ed25519KeypairToBytes (secret public : Bytes 32) : List Nat :=
  secret.1 ++ public.1

/-- `ed25519_dalek::Keypair::from_bytes`: succeeds exactly on a 64-byte
input, splitting it into the 32-byte secret and 32-byte public halves. -/
def ed25519KeypairFromBytes (l : List Nat) : Option (Bytes 32 × Bytes 32) :=
  if h : l.length = 64 ∧ IsByteList l then
    some (⟨l.take 32, by
            refine ⟨?_, fun b hb => h.2 b (List.mem_of_mem_take hb)⟩
            simp [List.length_take, h.1]⟩,
          ⟨l.drop 32, by
            refine ⟨?_, fun b hb => h.2 b (List.mem_of_mem_drop hb)⟩
            simp [List.length_drop, h.1]⟩)
  else none

/-- `impl Clone for Keypair` from `src/keys.rs`: the Ed25519 arm goes through
`from_bytes(to_bytes(..))` (unwrapped in the source; `none` models the
panic), the BLS arms clone natively. -/
def Keypair.clone : Keypair → Option Keypair
  | .ed25519 s p =>
      (ed25519KeypairFromBytes (ed25519KeypairToBytes s p)).map
        fun q => .ed25519 q.1 q.2
  | .bls s p => some (.bls s p)
  | .blsShare s p => some (.blsShare s p)

/-- `impl PartialEq for Keypair` from `src/keys.rs`: Ed25519 keypairs compare
by `to_bytes()`, BLS keypairs compare componentwise, cross-variant pairs are
`false`. -/
def Keypair.eqImpl : Keypair → Keypair → Bool
  | .ed25519 s p, .ed25519 s' p' =>
      decide (ed25519KeypairToBytes s p = ed25519KeypairToBytes s' p')
  | .bls s p, .bls s' p' => decide (s = s') && decide (p = p')
  | .blsShare s p, .blsShare s' p' => decide (s = s') && decide (p = p')
  | _, _ => false

/-- `XOR_NAME_LEN`: identifiers are 32 bytes. -/
def XOR_NAME_LEN : Nat := 32

/-- The native byte form of a public key (`to_bytes()` per variant). -/
def PublicKey.toBytes : PublicKey → List Nat
  | .ed25519 k => k.1
  | .bls k => k.1
  | .blsShare k => k.1

/-- `impl From<PublicKey> for XorName` from `src/keys.rs`: an Ed25519 key's
full 32-byte form is the name; a BLS key or key share contributes the first
`XOR_NAME_LEN` bytes of its 48-byte form. -/
def xorNameOfPublicKey : PublicKey → List Nat
  | .ed25519 k => k.1
  | .bls k => k.1.take XOR_NAME_LEN
  | .blsShare k => k.1.take XOR_NAME_LEN

/-- Interpret a list of bits (most significant first) as a natural number. -/
def bitsToNat (l : List Bool) : Nat :=
  l.foldl (fun acc b => 2 * acc + (if b then 1 else 0)) 0

/-- The `w` low bits of a natural number, most significant first. -/
def natToBits : Nat → Nat → List Bool
  | 0, _ => []
  | w + 1, n => natToBits w (n / 2) ++ [decide (n % 2 = 1)]

/-- The bit stream of a byte string, eight bits per byte, most significant
bit first (the bit order of base32 encodings). -/
def bytesToBits (bs : List Nat) : List Bool :=
  (bs.map (natToBits 8)).flatten

/-- Split a list into consecutive chunks of size `k` (the final chunk may be
shorter); `k` is used at 5 and 8 only. -/
def chunks {α : Type} (k : Nat) : List α → List (List α)
  | [] => []
  | a :: rest => (a :: rest.take (k - 1)) :: chunks k (rest.drop (k - 1))
termination_by l => l.length
decreasing_by simp [List.length_drop]; omega

/-- Reassemble a bit stream into bytes (chunks of eight bits). -/
def bitsToBytes (bits : List Bool) : List Nat :=
  (chunks 8 bits).map bitsToNat

/-- The z-base-32 digit alphabet. -/
def zAlphabet : List Char :=
  ['y', 'b', 'n', 'd', 'r', 'f', 'g', '8', 'e', 'j', 'k', 'm', 'c', 'p', 'q',
   'x', 'o', 't', '1', 'u', 'w', 'i', 's', 'z', 'a', '3', '4', '5', 'h', '7',
   '6', '9']

/-- The character of a z-base-32 digit. -/
def zDigitChar (d : Nat) : Char := zAlphabet.getD d 'y'

/-- The z-base-32 digit of a character, absent when the character is not in
the alphabet. -/
def zCharDigit (c : Char) : Option Nat :=
  let i := zAlphabet.indexOf c
  if i < 32 then some i else none

/-- Pad a bit stream with trailing zero bits up to a multiple of five. -/
def padBitsTo5 (bits : List Bool) : List Bool :=
  bits ++ List.replicate ((5 - bits.length % 5) % 5) false

/-- z-base-32 encoding (the `multibase` collaborator's `Base32Z`): the byte
string's bit stream, zero-padded to a multiple of five bits, read off in
five-bit digits. -/
def zbase32Encode (bs : List Nat) : List Char :=
  ((chunks 5 (padBitsTo5 (bytesToBits bs))).map bitsToNat).map zDigitChar

/-- z-base-32 decoding: map characters back to five-bit digits (failing on a
character outside the alphabet), concatenate the bits and drop the trailing
padding bits that do not fill a byte. -/
def zbase32Decode (s : List Char) : Option (List Nat) :=
  (s.mapM zCharDigit).map fun digits =>
    let bits := (digits.map (natToBits 5)).flatten
    bitsToBytes (bits.take (8 * (bits.length / 8)))

/-- The lowercase hexadecimal alphabet (the `multibase` collaborator's
`Base16`): digits then lowercase letters. -/
def hexAlphabet : List Char :=
  (List.range 16).map fun d =>
    if d < 10 then Char.ofNat (48 + d) else Char.ofNat (87 + d)

/-- Base16 encoding: two hexadecimal digits per byte. -/
def hexEncode (bs : List Nat) : List Char :=
  (bs.map fun b => [hexAlphabet.getD (b / 16) '0', hexAlphabet.getD (b % 16) '0']).flatten

/-- The value of one hexadecimal digit character. -/
def hexCharDigit (c : Char) : Option Nat :=
  let i := hexAlphabet.indexOf c
  if i < 16 then some i else none

/-- Base16 decoding: pairs of hexadecimal digit characters. -/
def hexDecode : List Char → Option (List Nat)
  | [] => some []
  | [_] => none
  | c1 :: c2 :: rest => do
      let hi ← hexCharDigit c1
      let lo ← hexCharDigit c2
      let tail ← hexDecode rest
      pure ((16 * hi + lo) :: tail)

/-- The self-describing bases of the `multibase` collaborator that this
development models: z-base-32 (prefix character h) and base16 (prefix
character f). -/
inductive Base where
  | base16 : Base
  | base32z : Base
deriving DecidableEq

/-- `multibase::encode`: the base's prefix character followed by the
base-encoded payload. -/
def multibaseEncode (b : Base) (bs : List Nat) : List Char :=
  match b with
  | .base32z => 'h' :: zbase32Encode bs
  | .base16 => 'f' :: hexEncode bs

/-- `multibase::decode`: dispatch on the prefix character, decode the rest,
and report which base was seen. -/
def multibaseDecode : List Char → Except String (Base × List Nat)
  | [] => .error "empty multibase input"
  | c :: rest =>
      if c = 'h' then
        match zbase32Decode rest with
        | some bs => .ok (.base32z, bs)
        | none => .error "invalid z-base-32 payload"
      else if c = 'f' then
        match hexDecode rest with
        | some bs => .ok (.base16, bs)
        | none => .error "invalid base16 payload"
      else .error "unknown multibase prefix"

/-- The canonical serialization of a `PublicKey` by the bincode
collaborator: a variant tag followed by the native key bytes.  Modelled from
the spec: bincode is the external canonical-serialization collaborator; the
core relies only on the encoding being deterministic and injective (§6). -/
def serialisePublicKey : PublicKey → List Nat
  | .ed25519 k => 0 :: k.1
  | .bls k => 1 :: k.1
  | .blsShare k => 2 :: k.1

/-- Canonical deserialization of a `PublicKey`: reject an unknown variant
tag and any payload that is not a byte string of the variant's native
length. -/
def deserialisePublicKey (l : List Nat) : Except String PublicKey :=
  match l with
  | 0 :: rest =>
      if h : rest.length = 32 ∧ IsByteList rest then .ok (.ed25519 ⟨rest, h⟩)
      else .error "invalid Ed25519 public key payload"
  | 1 :: rest =>
      if h : rest.length = 48 ∧ IsByteList rest then .ok (.bls ⟨rest, h⟩)
      else .error "invalid BLS public key payload"
  | 2 :: rest =>
      if h : rest.length = 48 ∧ IsByteList rest then .ok (.blsShare ⟨rest, h⟩)
      else .error "invalid BLS share public key payload"
  | _ => .error "unknown PublicKey variant tag"

/-- `utils::encode` from `src/utils.rs` at type `PublicKey`: serialise, then
multibase-encode with `Base::Base32Z`. -/
def utilsEncodePublicKey (pk : PublicKey) : List Char :=
  multibaseEncode .base32z (serialisePublicKey pk)

/-- `utils::decode` from `src/utils.rs` at type `PublicKey`:
multibase-decode, reject any base other than `Base::Base32Z`, then
deserialise; every failure is reported as `Error::FailedToParse`. -/
def utilsDecodePublicKey (s : List Char) : Except Error PublicKey :=
  match multibaseDecode s with
  | .error e => .error (.failedToParse e)
  | .ok (base, decoded) =>
      if base ≠ Base.base32z then
        .error (.failedToParse "Expected z-base-32 encoding")
      else
        match deserialisePublicKey decoded with
        | .error e => .error (.failedToParse e)
        | .ok pk => .ok pk

/-- `PublicKey::encode_to_zbase32` from `src/keys.rs`. -/
def PublicKey.encode_to_zbase32 (pk : PublicKey) : List Char :=
  utilsEncodePublicKey pk

/-- `PublicKey::decode_from_zbase32` from `src/keys.rs`. -/
def PublicKey.decode_from_zbase32 (s : List Char) : Except Error PublicKey :=
  utilsDecodePublicKey s

/-- A protocol message as seen by `verify_signature`, opaque to the core;
`bytes` is its canonical (bincode) serialization. -/
structure Message where
  bytes : List Nat
deriving DecidableEq

/-- A `MessageId`: a 32-byte unique identifier. -/
structure MessageId where
  id : Bytes 32
deriving DecidableEq

/-- The canonical serialization of the pair `(request, message_id)` built by
`verify_signature`: for a pair, the bincode collaborator concatenates the
serializations of the components. -/
def serialiseMessagePair (request : Message) (message_id : MessageId) : List Nat :=
  request.bytes ++ message_id.id.1

/-- `utils::verify_signature` from `src/utils.rs`: canonically serialise the
pair `(request, message_id)` and delegate to `PublicKey::verify` on that
payload. -/
def verify_signature (P : CryptoProvider) (signature : Signature)
    (public_key : PublicKey) (request : Message) (message_id : MessageId) :
    Except Error Unit :=
  public_key.verify P signature (serialiseMessagePair request message_id)

/-- One entry of a Sequence: an opaque byte sequence. -/
def Entry : Type := List Nat

instance : DecidableEq Entry := inferInstanceAs (DecidableEq (List Nat))

/-- Modelled from the spec: `Version` (the repository's shared_types module
is not under src/; behavior is fixed by §3/§4.1 of the spec and the tests in
`src/data/tests/sequence.rs`): a two-mode index, absolute from the start or
relative from the end. -/
inductive Version where
  | fromStart : Nat → Version
  | fromEnd : Nat → Version
deriving DecidableEq

/-- Modelled from the spec (§4.1): resolve a `Version` against a log of
length `L`.  `FromStart(n)` resolves to `n`, unresolvable iff `n ≥ L`;
`FromEnd(n)` resolves to `L − 1 − n`, unresolvable iff `n ≥ L`. -/
def Version.resolve (v : Version) (L : Nat) : Option Nat :=
  match v with
  | .fromStart n => if n < L then some n else none
  | .fromEnd n => if n < L then some (L - 1 - n) else none

/-- Visibility classification of a Sequence (`PublicSequence` /
`PrivateSequence`). -/
inductive Visibility where
  | publicVis : Visibility
  | privateVis : Visibility
deriving DecidableEq

/-- Modelled from the spec (§3): a Sequence owns a 32-byte Identifier, a
numeric tag, a visibility classification, and the append-only ordered list
of entries (index 0 is the oldest); the implementation module is not under
src/, only its tests are. -/
structure Sequence where
  name : Bytes 32
  tag : Nat
  visibility : Visibility
  data : List Entry

/-- Modelled from the spec (§4.2): `in_range` resolves both versions against
the current length; the result is absent if either is unresolvable or the
resolved start index exceeds the resolved end index, and otherwise is the
contiguous inclusive run of entries between the two resolved indices. -/
def Sequence.in_range (s : Sequence) (start finish : Version) :
    Option (List Entry) :=
  match start.resolve s.data.length, finish.resolve s.data.length with
  | some i, some j =>
      if i ≤ j then some ((s.data.drop i).take (j - i + 1)) else none
  | _, _ => none

/-- Modelled from the spec (§4.3): `append` with an optional expected-version
guard.  A present guard must equal the current length or the call fails with
the version-mismatch condition and produces no new state; an absent guard
appends unconditionally; all entries are appended atomically. -/
def Sequence.append (s : Sequence) (entries : List Entry)
    (expected_version : Option Nat) : Except Error Sequence :=
  match expected_version with
  | some v =>
      if v = s.data.length then .ok { s with data := s.data ++ entries }
      else .error (.versionMismatch s.data.length)
  | none => .ok { s with data := s.data ++ entries }

/-! ## Concrete sample values, used to instantiate the theorems -/

/-- The all-zero byte string of length `n`. -/
def zeroBytes (n : Nat) : Bytes n :=
  ⟨List.replicate n 0, by
    refine ⟨List.length_replicate n 0, ?_⟩
    intro b hb
    have h := List.eq_of_mem_replicate hb
    omega⟩

/-- A concrete provider: Ed25519 and BLS checks accept everything, BLS-share
checks reject everything, derivations are constant. -/
def sampleProvider : CryptoProvider :=
  { ed25519Verify := fun _ _ _ => true
    blsVerify := fun _ _ _ => true
    blsShareVerify := fun _ _ _ => false
    ed25519PublicOfSecret := fun k => k
    blsPublicOfSecret := fun _ => zeroBytes 48
    blsSharePublicOfSecret := fun _ => zeroBytes 48 }

/-- A concrete Ed25519 public key. -/
def samplePkEd : PublicKey := .ed25519 (zeroBytes 32)

/-- A concrete BLS public key. -/
def samplePkBls : PublicKey := .bls (zeroBytes 48)

/-- A concrete Ed25519 signature. -/
def sampleSigEd : Signature := .ed25519 (zeroBytes 64)

/-- A concrete BLS signature. -/
def sampleSigBls : Signature := .bls (zeroBytes 96)

/-- A concrete four-entry public Sequence, mirroring the log built by the
in_range test. -/
def sampleSeq : Sequence :=
  { name := zeroBytes 32
    tag := 10
    visibility := .publicVis
    data := [[0], [1], [2], [3]] }

/-- A concrete message. -/
def sampleMessage : Message := ⟨[1, 2, 3]⟩

/-- A concrete message id. -/
def sampleMessageId : MessageId := ⟨zeroBytes 32⟩

/-- A concrete Ed25519 secret key. -/
def sampleSkEd : SecretKey := .ed25519 (zeroBytes 32)

/-- A concrete BLS secret key. -/
def sampleSkBls : SecretKey := .bls (zeroBytes 32)

/-- A concrete Ed25519 keypair. -/
def sampleKpEd : Keypair := .ed25519 (zeroBytes 32) (zeroBytes 32)

/-- A concrete BLS keypair. -/
def sampleKpBls : Keypair := .bls (zeroBytes 32) (zeroBytes 48)

/-! ## Bit-packing lemmas -/

theorem natToBits_length (w n : Nat) : (natToBits w n).length = w := by
  induction w generalizing n with
  | zero => rfl
  | succ k ih => simp [natToBits, ih]

theorem bitsToNat_concat (l : List Bool) (b : Bool) :
    bitsToNat (l ++ [b]) = 2 * bitsToNat l + (if b then 1 else 0) := by
  simp [bitsToNat, List.foldl_append]

theorem natToBits_bitsToNat (l : List Bool) :
    natToBits l.length (bitsToNat l) = l := by
  induction l using List.reverseRecOn with
  | nil => rfl
  | append_singleton l b ih =>
      rw [List.length_append, List.length_singleton, bitsToNat_concat, natToBits]
      have hdiv : (2 * bitsToNat l + (if b then 1 else 0)) / 2 = bitsToNat l := by
        cases b <;> simp <;> omega
      have hmod : decide ((2 * bitsToNat l + (if b then 1 else 0)) % 2 = 1) = b := by
        cases b <;> simp <;> omega
      rw [hdiv, hmod, ih]

theorem bitsToNat_foldl_lt (l : List Bool) (acc : Nat) :
    l.foldl (fun a b => 2 * a + (if b then 1 else 0)) acc < (acc + 1) * 2 ^ l.length := by
  induction l generalizing acc with
  | nil => simp
  | cons b t ih =>
      simp only [List.foldl_cons, List.length_cons]
      calc t.foldl (fun a b => 2 * a + (if b then 1 else 0))
              (2 * acc + (if b then 1 else 0))
          < (2 * acc + (if b then 1 else 0) + 1) * 2 ^ t.length := ih _
        _ ≤ (2 * acc + 2) * 2 ^ t.length := by
              apply Nat.mul_le_mul_right
              cases b <;> simp
        _ = (acc + 1) * 2 ^ (t.length + 1) := by ring

theorem bitsToNat_lt (l : List Bool) : bitsToNat l < 2 ^ l.length := by
  simpa [bitsToNat] using bitsToNat_foldl_lt l 0

theorem bitsToNat_natToBits (w n : Nat) :
    bitsToNat (natToBits w n) = n % 2 ^ w := by
  induction w generalizing n with
  | zero => simp [natToBits, bitsToNat, Nat.mod_one]
  | succ k ih =>
      rw [natToBits, bitsToNat_concat, ih]
      have hbit : (if decide (n % 2 = 1) then 1 else 0) = n % 2 := by
        rcases Nat.mod_two_eq_zero_or_one n with h | h <;> simp [h]
      rw [hbit, pow_succ', Nat.mod_mul]
      omega

theorem bytesToBits_length (bs : List Nat) :
    (bytesToBits bs).length = 8 * bs.length := by
  induction bs with
  | nil => rfl
  | cons b t ih => simp [bytesToBits, natToBits_length] at ih ⊢; omega

/-! ## Chunking lemmas -/

theorem chunks_flatten {α : Type} (k : Nat) (l : List α) :
    (chunks k l).flatten = l := by
  induction l using chunks.induct k with
  | case1 => rw [chunks]; rfl
  | case2 a rest ih =>
      rw [chunks]
      simp only [List.flatten_cons, List.cons_append, ih]
      simp [List.take_append_drop]

theorem chunks_length_of_dvd {α : Type} (k : Nat) (hk : k ≠ 0) (l : List α) :
    k ∣ l.length → ∀ c ∈ chunks k l, c.length = k := by
  induction l using chunks.induct k with
  | case1 => intro _ c hc; rw [chunks] at hc; simp at hc
  | case2 a rest ih =>
      intro hdvd c hc
      simp only [List.length_cons] at hdvd
      have hlen : k ≤ rest.length + 1 := by
        rcases hdvd with ⟨m, hm⟩
        rcases Nat.eq_zero_or_pos m with h0 | h0
        · subst h0; simp at hm
        · calc k = k * 1 := by ring
            _ ≤ k * m := Nat.mul_le_mul_left k h0
            _ = rest.length + 1 := hm.symm
      rw [chunks] at hc
      rcases List.mem_cons.mp hc with h | h
      · subst h
        simp only [List.length_cons, List.length_take]
        omega
      · apply ih _ c h
        have heq : (List.drop (k - 1) rest).length = rest.length + 1 - k := by
          simp only [List.length_drop]; omega
        rw [heq]
        exact Nat.dvd_sub' hdvd (dvd_refl k)

theorem chunks_cons_of_length {α : Type} (k : Nat) (hk : k ≠ 0) (c t : List α)
    (hc : c.length = k) : chunks k (c ++ t) = c :: chunks k t := by
  cases c with
  | nil => simp only [List.length_nil] at hc; omega
  | cons a c' =>
      have hc' : c'.length = k - 1 := by
        simp only [List.length_cons] at hc; omega
      rw [List.cons_append, chunks, ← hc', List.take_left, List.drop_left]

theorem chunks_flatten_of_length {α : Type} (k : Nat) (hk : k ≠ 0)
    (ls : List (List α)) (h : ∀ c ∈ ls, c.length = k) :
    chunks k ls.flatten = ls := by
  induction ls with
  | nil => rw [List.flatten_nil, chunks]
  | cons c t ih =>
      rw [List.flatten_cons, chunks_cons_of_length k hk c _ (h c (by simp)),
        ih (fun c hc => h c (by simp [hc]))]

theorem bitsToBytes_bytesToBits (bs : List Nat) (hbs : IsByteList bs) :
    bitsToBytes (bytesToBits bs) = bs := by
  unfold bitsToBytes bytesToBits
  rw [chunks_flatten_of_length 8 (by omega) _ (by
      intro c hc
      rcases List.mem_map.mp hc with ⟨b, _, rfl⟩
      exact natToBits_length 8 b)]
  rw [List.map_map]
  have hcong : ∀ b ∈ bs, (bitsToNat ∘ natToBits 8) b = b := by
    intro b hb
    simp only [Function.comp_apply, bitsToNat_natToBits]
    exact Nat.mod_eq_of_lt (lt_of_lt_of_le (hbs b hb) (by norm_num))
  rw [List.map_congr_left hcong]
  exact List.map_id' bs

theorem mapM_map_of_inverse {α β : Type} (f : α → β) (g : β → Option α)
    (l : List α) (h : ∀ x ∈ l, g (f x) = some x) :
    (l.map f).mapM g = some l := by
  induction l with
  | nil => rfl
  | cons a t ih =>
      simp only [List.map_cons, List.mapM_cons, h a (by simp),
        ih (fun x hx => h x (by simp [hx]))]
      rfl

theorem zCharDigit_zDigitChar : ∀ d < 32, zCharDigit (zDigitChar d) = some d := by
  decide

theorem zbase32Encode_decode (bs : List Nat) (hbs : IsByteList bs) :
    zbase32Decode (zbase32Encode bs) = some bs := by
  unfold zbase32Encode zbase32Decode
  have hpadlen : (padBitsTo5 (bytesToBits bs)).length =
      8 * bs.length + (5 - (8 * bs.length) % 5) % 5 := by
    simp [padBitsTo5, bytesToBits_length]
  have hdvd : (5 : Nat) ∣ (padBitsTo5 (bytesToBits bs)).length := by
    rw [hpadlen]; omega
  have hdig : ∀ d ∈ (chunks 5 (padBitsTo5 (bytesToBits bs))).map bitsToNat,
      d < 32 := by
    intro d hd
    rcases List.mem_map.mp hd with ⟨c, hc, rfl⟩
    have hl := chunks_length_of_dvd 5 (by omega) _ hdvd c hc
    have h2 := bitsToNat_lt c
    rw [hl] at h2
    exact lt_of_lt_of_le h2 (by norm_num)
  rw [mapM_map_of_inverse zDigitChar zCharDigit _
    (fun d hd => zCharDigit_zDigitChar d (hdig d hd))]
  simp only [Option.map_some']
  congr 1
  rw [List.map_map]
  have hcong : ∀ c ∈ chunks 5 (padBitsTo5 (bytesToBits bs)),
      (natToBits 5 ∘ bitsToNat) c = c := by
    intro c hc
    have hl := chunks_length_of_dvd 5 (by omega) _ hdvd c hc
    simp only [Function.comp_apply]
    rw [← hl]
    exact natToBits_bitsToNat c
  rw [List.map_congr_left hcong]
  rw [show List.map (fun a => a) (chunks 5 (padBitsTo5 (bytesToBits bs))) =
    chunks 5 (padBitsTo5 (bytesToBits bs)) from List.map_id' _, chunks_flatten]
  have hlen2 : (padBitsTo5 (bytesToBits bs)).length / 8 = bs.length := by
    rw [hpadlen]; omega
  rw [hlen2]
  have htake : (padBitsTo5 (bytesToBits bs)).take (8 * bs.length) =
      bytesToBits bs := by
    unfold padBitsTo5
    rw [← bytesToBits_length bs, List.take_left]
  rw [htake]
  exact bitsToBytes_bytesToBits bs hbs

theorem serialisePublicKey_isByteList (pk : PublicKey) :
    IsByteList (serialisePublicKey pk) := by
  cases pk with
  | ed25519 k =>
      intro b hb
      rcases List.mem_cons.mp hb with h | h
      · omega
      · exact k.2.2 b h
  | bls k =>
      intro b hb
      rcases List.mem_cons.mp hb with h | h
      · omega
      · exact k.2.2 b h
  | blsShare k =>
      intro b hb
      rcases List.mem_cons.mp hb with h | h
      · omega
      · exact k.2.2 b h

theorem deserialise_serialisePublicKey (pk : PublicKey) :
    deserialisePublicKey (serialisePublicKey pk) = .ok pk := by
  cases pk with
  | ed25519 k =>
      simp only [serialisePublicKey, deserialisePublicKey]
      rw [dif_pos k.2]
      exact congrArg Except.ok (congrArg PublicKey.ed25519 (Subtype.ext rfl))
  | bls k =>
      simp only [serialisePublicKey, deserialisePublicKey]
      rw [dif_pos k.2]
      exact congrArg Except.ok (congrArg PublicKey.bls (Subtype.ext rfl))
  | blsShare k =>
      simp only [serialisePublicKey, deserialisePublicKey]
      rw [dif_pos k.2]
      exact congrArg Except.ok (congrArg PublicKey.blsShare (Subtype.ext rfl))

theorem multibaseDecode_encode_base32z (bs : List Nat) (hbs : IsByteList bs) :
    multibaseDecode (multibaseEncode .base32z bs) = .ok (.base32z, bs) := by
  simp only [multibaseEncode, multibaseDecode, if_true]
  rw [zbase32Encode_decode bs hbs]

theorem utilsDecode_utilsEncode_publicKey (pk : PublicKey) :
    utilsDecodePublicKey (utilsEncodePublicKey pk) = .ok pk := by
  unfold utilsEncodePublicKey utilsDecodePublicKey
  rw [multibaseDecode_encode_base32z _ (serialisePublicKey_isByteList pk)]
  simp [deserialise_serialisePublicKey pk]


/-! ## Version resolution and Sequence lemmas -/

theorem Version.resolve_lt {v : Version} {L i : Nat}
    (h : v.resolve L = some i) : i < L := by
  cases v with
  | fromStart n =>
      simp only [Version.resolve] at h
      by_cases hn : n < L
      · rw [if_pos hn] at h
        have := Option.some_inj.mp h
        omega
      · rw [if_neg hn] at h
        cases h
  | fromEnd n =>
      simp only [Version.resolve] at h
      by_cases hn : n < L
      · rw [if_pos hn] at h
        have := Option.some_inj.mp h
        omega
      · rw [if_neg hn] at h
        cases h

/-! ## The claims -/

/-- C1: for every log of length L and every pair of Version values
(start, end), in_range(start, end) returns a present result if and only if
both versions resolve to absolute indices in [0, L) and the resolved start
index is at most the resolved end index; when present, the result is the
contiguous run of entries from the resolved start index through the resolved
end index inclusive, in ascending version order, with length
end_index − start_index + 1. -/
theorem c1_in_range_characterisation (s : Sequence) (a b : Version) :
    ((s.in_range a b).isSome ↔
      ∃ i j, a.resolve s.data.length = some i ∧ b.resolve s.data.length = some j ∧
        i < s.data.length ∧ j < s.data.length ∧ i ≤ j) ∧
    (∀ i j, a.resolve s.data.length = some i → b.resolve s.data.length = some j →
      i ≤ j →
      ∃ t, s.in_range a b = some t ∧ t.length = j - i + 1 ∧
        ∀ m, m ≤ j - i → t[m]? = s.data[i + m]?) := by
  constructor
  · cases ha : a.resolve s.data.length with
    | none =>
        constructor
        · intro hs
          simp only [Sequence.in_range] at hs
          rw [ha] at hs
          simp at hs
        · rintro ⟨i, j, hi, -⟩
          cases hi
    | some i0 =>
        cases hb : b.resolve s.data.length with
        | none =>
            constructor
            · intro hs
              simp only [Sequence.in_range] at hs
              rw [ha, hb] at hs
              simp at hs
            · rintro ⟨i, j, hi, hj, -⟩
              cases hj
        | some j0 =>
            have hin : s.in_range a b =
                if i0 ≤ j0 then some ((s.data.drop i0).take (j0 - i0 + 1))
                else none := by
              simp only [Sequence.in_range]
              rw [ha, hb]
            constructor
            · intro hs
              by_cases hij : i0 ≤ j0
              · exact ⟨i0, j0, rfl, rfl, Version.resolve_lt ha,
                  Version.resolve_lt hb, hij⟩
              · rw [hin, if_neg hij] at hs
                simp at hs
            · rintro ⟨i, j, hi, hj, -, -, hij⟩
              cases hi
              cases hj
              rw [hin, if_pos hij]
              simp
  · intro i j hi hj hij
    have hjL : j < s.data.length := Version.resolve_lt hj
    refine ⟨(s.data.drop i).take (j - i + 1), ?_, ?_, ?_⟩
    · simp only [Sequence.in_range, hi, hj]
      rw [if_pos hij]
    · rw [List.length_take, List.length_drop]
      omega
    · intro m hm
      rw [List.getElem?_take, if_pos (by omega), List.getElem?_drop]

/-- Witness for C1 at a concrete log and a concrete mixed version pair. -/
theorem c1_witness :
    ∃ t, sampleSeq.in_range (.fromStart 1) (.fromEnd 1) = some t ∧
      t.length = 2 - 1 + 1 ∧ ∀ m, m ≤ 2 - 1 → t[m]? = sampleSeq.data[1 + m]? := by
  exact (c1_in_range_characterisation sampleSeq (.fromStart 1) (.fromEnd 1)).2
    1 2 (by rfl) (by rfl) (by omega)

/-- C2: for every Sequence and every append(entries, expected_version) with
a present expected_version different from the current length, the call fails
with the version-mismatch condition — producing no new state, so the
Sequence is left completely unchanged (no partial append) — and when
expected_version is absent the append is unconditional. -/
theorem c2_append_version_guard (s : Sequence) (entries : List Entry) (v : Nat)
    (h : v ≠ s.data.length) :
    s.append entries (some v) = .error (.versionMismatch s.data.length) ∧
    ∀ (s2 : Sequence) (es : List Entry),
      s2.append es none = .ok { s2 with data := s2.data ++ es } := by
  constructor
  · simp only [Sequence.append]
    rw [if_neg h]
  · intro s2 es
    rfl

/-- Witness for C2: a stale guard on the concrete log fails, an absent guard
succeeds. -/
theorem c2_witness :
    sampleSeq.append [[9]] (some 7) = .error (.versionMismatch 4) ∧
    ∀ (s2 : Sequence) (es : List Entry),
      s2.append es none = .ok { s2 with data := s2.data ++ es } := by
  exact c2_append_version_guard sampleSeq [[9]] 7 (by decide)

/-- C3: for every Sequence of length L and every batch of k entries
(including k = 0), a successful append with a matching expected_version
guard makes the new length exactly L + k and makes all k entries
retrievable by a subsequent in_range read in append order; an empty batch is
a no-op that succeeds exactly when the version guard (if present) matches. -/
theorem c3_append_success (s : Sequence) (entries : List Entry) :
    (∃ s2, s.append entries (some s.data.length) = .ok s2 ∧
      s2.data = s.data ++ entries ∧
      s2.data.length = s.data.length + entries.length ∧
      (entries.length ≠ 0 →
        s2.in_range (.fromStart s.data.length)
          (.fromStart (s.data.length + entries.length - 1)) = some entries)) ∧
    s.append [] (some s.data.length) = .ok s ∧
    (∀ g, (∃ s3, s.append [] (some g) = .ok s3) ↔ g = s.data.length) := by
  refine ⟨⟨{ s with data := s.data ++ entries }, ?_, rfl, by simp, ?_⟩, ?_, ?_⟩
  · simp [Sequence.append]
  · intro hk
    have h1 : Version.resolve (.fromStart s.data.length)
        (({ s with data := s.data ++ entries } : Sequence).data.length) =
        some s.data.length := by
      show Version.resolve (.fromStart s.data.length) (s.data ++ entries).length =
        some s.data.length
      simp only [Version.resolve, List.length_append]
      rw [if_pos (by omega)]
    have h2 : Version.resolve (.fromStart (s.data.length + entries.length - 1))
        (({ s with data := s.data ++ entries } : Sequence).data.length) =
        some (s.data.length + entries.length - 1) := by
      show Version.resolve (.fromStart (s.data.length + entries.length - 1))
        (s.data ++ entries).length = some (s.data.length + entries.length - 1)
      simp only [Version.resolve, List.length_append]
      rw [if_pos (by omega)]
    have harith : s.data.length ≤ s.data.length + entries.length - 1 := by omega
    simp only [Sequence.in_range, h1, h2]
    rw [if_pos harith]
    show some (((s.data ++ entries).drop s.data.length).take
      (s.data.length + entries.length - 1 - s.data.length + 1)) = some entries
    rw [List.drop_left]
    have harith2 : s.data.length + entries.length - 1 - s.data.length + 1 =
        entries.length := by omega
    rw [harith2, List.take_length]
  · simp [Sequence.append]
  · intro g
    constructor
    · rintro ⟨s3, h3⟩
      simp only [Sequence.append] at h3
      by_cases hg : g = s.data.length
      · exact hg
      · rw [if_neg hg] at h3
        cases h3
    · intro hg
      subst hg
      exact ⟨s, by simp [Sequence.append]⟩

/-- Witness for C3 at a concrete log and batch, with the inner hypotheses
discharged concretely. -/
theorem c3_witness :
    (∃ s2, sampleSeq.append [[7], [8]] (some sampleSeq.data.length) = .ok s2 ∧
      s2.data = sampleSeq.data ++ ([[7], [8]] : List Entry) ∧
      s2.data.length = sampleSeq.data.length + 2 ∧
      ([[7], [8]] : List Entry).length ≠ 0 ∧
      s2.in_range (.fromStart 4) (.fromStart 5) = some [[7], [8]]) := by
  obtain ⟨⟨s2, h1, h2, h3, h4⟩, -, -⟩ := c3_append_success sampleSeq [[7], [8]]
  exact ⟨s2, h1, h2, h3, by decide, h4 (by decide)⟩

/-- C4: for every log length L and every Version value, FromStart(n)
resolves to absolute index n and is unresolvable exactly when n ≥ L;
FromEnd(n) resolves to absolute index L − 1 − n and is unresolvable exactly
when n ≥ L; resolution is a pure function of (version, length) with no
mutation, and FromEnd(0) denotes the last entry (index L − 1). -/
theorem c4_version_resolution (L n : Nat) :
    ((Version.fromStart n).resolve L = none ↔ L ≤ n) ∧
    (∀ i, (Version.fromStart n).resolve L = some i ↔ n < L ∧ i = n) ∧
    ((Version.fromEnd n).resolve L = none ↔ L ≤ n) ∧
    (∀ i, (Version.fromEnd n).resolve L = some i ↔ n < L ∧ i = L - 1 - n) ∧
    (0 < L → (Version.fromEnd 0).resolve L = some (L - 1)) := by
  refine ⟨?_, ?_, ?_, ?_, ?_⟩
  · simp only [Version.resolve]
    by_cases hn : n < L
    · rw [if_pos hn]
      simp
      omega
    · rw [if_neg hn]
      simp
      omega
  · intro i
    simp only [Version.resolve]
    by_cases hn : n < L
    · rw [if_pos hn]
      simp [hn]
      omega
    · rw [if_neg hn]
      simp
      omega
  · simp only [Version.resolve]
    by_cases hn : n < L
    · rw [if_pos hn]
      simp
      omega
    · rw [if_neg hn]
      simp
      omega
  · intro i
    simp only [Version.resolve]
    by_cases hn : n < L
    · rw [if_pos hn]
      simp [hn]
      omega
    · rw [if_neg hn]
      simp
      omega
  · intro hL
    simp only [Version.resolve]
    rw [if_pos hL]
    simp

/-- Witness for C4 at a concrete length, discharging the positivity
hypothesis of the last conjunct. -/
theorem c4_witness : (Version.fromEnd 0).resolve 4 = some 3 := by
  exact (c4_version_resolution 4 0).2.2.2.2 (by omega)



/-- C5: for every PublicKey, Signature and data, PublicKey::verify returns
the scheme-mismatch error whenever the key variant and signature variant
differ, regardless of payload and without attempting cryptographic
verification; when the variants match it returns success exactly when the
scheme's native check passes, and otherwise returns the single
invalid-signature error, with no other failure distinguished from an
invalid signature. -/
theorem c5_verify_dispatch (P : CryptoProvider) (pk : PublicKey)
    (signature : Signature) (data : List Nat) :
    (pk.variant ≠ signature.variant →
      pk.verify P signature data = .error .signingKeyTypeMismatch) ∧
    (pk.variant = signature.variant →
      (pk.verify P signature data = .ok () ↔
        nativeVerifies P pk signature data = true) ∧
      (nativeVerifies P pk signature data = false →
        pk.verify P signature data = .error .invalidSignature)) := by
  cases pk with
  | ed25519 k =>
      cases signature with
      | ed25519 sg =>
          refine ⟨fun h => absurd rfl h, fun _ => ?_⟩
          simp only [PublicKey.verify, nativeVerifies]
          refine ⟨⟨fun hok => ?_, fun htrue => ?_⟩, fun hfalse => ?_⟩
          · split at hok
            · assumption
            · cases hok
          · rw [if_pos htrue]
          · rw [if_neg (by simp [hfalse])]
      | bls sg => exact ⟨fun _ => rfl, fun h => Scheme.noConfusion h⟩
      | blsShare sg => exact ⟨fun _ => rfl, fun h => Scheme.noConfusion h⟩
  | bls k =>
      cases signature with
      | ed25519 sg => exact ⟨fun _ => rfl, fun h => Scheme.noConfusion h⟩
      | bls sg =>
          refine ⟨fun h => absurd rfl h, fun _ => ?_⟩
          simp only [PublicKey.verify, nativeVerifies]
          refine ⟨⟨fun hok => ?_, fun htrue => ?_⟩, fun hfalse => ?_⟩
          · split at hok
            · assumption
            · cases hok
          · rw [if_pos htrue]
          · rw [if_neg (by simp [hfalse])]
      | blsShare sg => exact ⟨fun _ => rfl, fun h => Scheme.noConfusion h⟩
  | blsShare k =>
      cases signature with
      | ed25519 sg => exact ⟨fun _ => rfl, fun h => Scheme.noConfusion h⟩
      | bls sg => exact ⟨fun _ => rfl, fun h => Scheme.noConfusion h⟩
      | blsShare sg =>
          refine ⟨fun h => absurd rfl h, fun _ => ?_⟩
          simp only [PublicKey.verify, nativeVerifies]
          refine ⟨⟨fun hok => ?_, fun htrue => ?_⟩, fun hfalse => ?_⟩
          · split at hok
            · assumption
            · cases hok
          · rw [if_pos htrue]
          · rw [if_neg (by simp [hfalse])]

/-- Witness for C5: a cross-variant pair is rejected as a scheme mismatch,
and a matching pair with an accepting native check verifies. -/
theorem c5_witness :
    PublicKey.verify sampleProvider samplePkEd sampleSigBls [] =
      .error .signingKeyTypeMismatch ∧
    PublicKey.verify sampleProvider samplePkEd sampleSigEd [] = .ok () := by
  constructor
  · exact (c5_verify_dispatch sampleProvider samplePkEd sampleSigBls []).1
      (by decide)
  · exact ((c5_verify_dispatch sampleProvider samplePkEd sampleSigEd []).2
      (by decide)).1.mpr (by rfl)


/-- Two fixed-length byte strings of different lengths have different
underlying lists. -/
theorem bytes_length_ne {m n : Nat} (a : Bytes m) (b : Bytes n) (hmn : m ≠ n) :
    a.1 ≠ b.1 := by
  intro h
  have h2 := congrArg List.length h
  rw [a.2.1, b.2.1] at h2
  exact hmn h2

/-- C6: for every PublicKey, decoding the portable text encoding of that key
yields the original key (decode_from_zbase32(encode_to_zbase32(key)) = key),
and decode rejects with a decoding failure any input whose base tag is not
z-base-32 and any input whose payload fails to deserialize into one of the
three PublicKey variants. -/
theorem c6_portable_text_roundtrip (pk : PublicKey) (s : List Char)
    (b : Base) (bytes : List Nat) :
    PublicKey.decode_from_zbase32 (pk.encode_to_zbase32) = .ok pk ∧
    (multibaseDecode s = .ok (b, bytes) → b ≠ .base32z →
      ∃ msg, utilsDecodePublicKey s = .error (.failedToParse msg)) ∧
    (multibaseDecode s = .ok (.base32z, bytes) →
      ∀ msg0, deserialisePublicKey bytes = .error msg0 →
        utilsDecodePublicKey s = .error (.failedToParse msg0)) ∧
    (∀ msg1, multibaseDecode s = .error msg1 →
      utilsDecodePublicKey s = .error (.failedToParse msg1)) := by
  refine ⟨utilsDecode_utilsEncode_publicKey pk, ?_, ?_, ?_⟩
  · intro hdec hb
    simp only [utilsDecodePublicKey, hdec]
    rw [if_pos hb]
    exact ⟨_, rfl⟩
  · intro hdec msg0 hdes
    simp only [utilsDecodePublicKey, hdec]
    rw [if_neg (fun hh => hh rfl)]
    simp only [hdes]
  · intro msg1 hdec
    simp only [utilsDecodePublicKey, hdec]

/-- Witness for C6: the concrete Ed25519 key round-trips, and a base16-tagged
input is rejected. -/
theorem c6_witness :
    PublicKey.decode_from_zbase32 (samplePkEd.encode_to_zbase32) = .ok samplePkEd ∧
    ∃ msg, utilsDecodePublicKey ['f', '0', '0'] = .error (.failedToParse msg) := by
  obtain ⟨h1, h2, -, -⟩ :=
    c6_portable_text_roundtrip samplePkEd ['f', '0', '0'] .base16 [0]
  exact ⟨h1, h2 (by rfl) (by decide)⟩

/-- C7: deriving an Identifier (XorName) from a PublicKey is deterministic
and depends only on the key's canonical byte form: an Ed25519 key's full
32-byte native form is used directly, and a BLS or BLS-share key uses the
first 32 bytes of its native byte form; the result is always 32 bytes. -/
theorem c7_xorname_of_publickey (pk pk2 : PublicKey) :
    (pk.toBytes = pk2.toBytes →
      xorNameOfPublicKey pk = xorNameOfPublicKey pk2) ∧
    (∀ k : Bytes 32, xorNameOfPublicKey (.ed25519 k) = k.1) ∧
    (∀ k : Bytes 48, xorNameOfPublicKey (.bls k) = k.1.take XOR_NAME_LEN) ∧
    (∀ k : Bytes 48, xorNameOfPublicKey (.blsShare k) = k.1.take XOR_NAME_LEN) ∧
    (xorNameOfPublicKey pk).length = XOR_NAME_LEN := by
  refine ⟨?_, fun k => rfl, fun k => rfl, fun k => rfl, ?_⟩
  · intro h
    cases pk with
    | ed25519 k =>
        cases pk2 with
        | ed25519 k2 => simp only [xorNameOfPublicKey]; exact h
        | bls k2 => exact absurd h (bytes_length_ne k k2 (by omega))
        | blsShare k2 => exact absurd h (bytes_length_ne k k2 (by omega))
    | bls k =>
        cases pk2 with
        | ed25519 k2 => exact absurd h (bytes_length_ne k k2 (by omega))
        | bls k2 => simp only [xorNameOfPublicKey]; rw [show k.1 = k2.1 from h]
        | blsShare k2 => simp only [xorNameOfPublicKey]; rw [show k.1 = k2.1 from h]
    | blsShare k =>
        cases pk2 with
        | ed25519 k2 => exact absurd h (bytes_length_ne k k2 (by omega))
        | bls k2 => simp only [xorNameOfPublicKey]; rw [show k.1 = k2.1 from h]
        | blsShare k2 => simp only [xorNameOfPublicKey]; rw [show k.1 = k2.1 from h]
  · cases pk with
    | ed25519 k => simp only [xorNameOfPublicKey, XOR_NAME_LEN]; exact k.2.1
    | bls k =>
        simp only [xorNameOfPublicKey, XOR_NAME_LEN, List.length_take, k.2.1]
        omega
    | blsShare k =>
        simp only [xorNameOfPublicKey, XOR_NAME_LEN, List.length_take, k.2.1]
        omega

/-- Witness for C7: a BLS key and a BLS-share key with the same byte form
derive the same identifier, and the identifier is 32 bytes. -/
theorem c7_witness :
    xorNameOfPublicKey samplePkBls =
      xorNameOfPublicKey (.blsShare (zeroBytes 48)) ∧
    (xorNameOfPublicKey samplePkBls).length = XOR_NAME_LEN := by
  exact ⟨(c7_xorname_of_publickey samplePkBls (.blsShare (zeroBytes 48))).1 rfl,
    (c7_xorname_of_publickey samplePkBls (.blsShare (zeroBytes 48))).2.2.2.2⟩

/-- C8: verify_signature canonically serializes the pair
(message, message_id) and returns exactly the result of PublicKey::verify
applied to that serialized payload, so it succeeds if and only if the
signature verifies over the canonical serialization of the pair under the
given key. -/
theorem c8_verify_signature_delegation (P : CryptoProvider)
    (signature : Signature) (public_key : PublicKey) (request : Message)
    (message_id : MessageId) :
    verify_signature P signature public_key request message_id =
      public_key.verify P signature (serialiseMessagePair request message_id) ∧
    (verify_signature P signature public_key request message_id = .ok () ↔
      public_key.verify P signature
        (serialiseMessagePair request message_id) = .ok ()) :=
  ⟨rfl, Iff.rfl⟩

/-- Witness for C8 at concrete arguments. -/
theorem c8_witness :
    verify_signature sampleProvider sampleSigEd samplePkEd sampleMessage
      sampleMessageId =
    samplePkEd.verify sampleProvider sampleSigEd
      (serialiseMessagePair sampleMessage sampleMessageId) :=
  (c8_verify_signature_delegation sampleProvider sampleSigEd samplePkEd
    sampleMessage sampleMessageId).1

/-- C9: for every SecretKey and every Keypair, the PublicKey obtained from
it (SecretKey::public_key, Keypair::public_key, or PublicKey::from applied
to the secret key) is always of the same scheme variant as the source. -/
theorem c9_public_key_preserves_scheme (P : CryptoProvider) (sk : SecretKey)
    (kp : Keypair) :
    (sk.public_key P).variant = sk.variant ∧
    (publicKeyOfSecretKey P sk).variant = sk.variant ∧
    kp.public_key.variant = kp.variant := by
  refine ⟨?_, ?_, ?_⟩
  · cases sk <;> rfl
  · cases sk <;> rfl
  · cases kp <;> rfl

/-- Witness for C9 at concrete keys of each kind. -/
theorem c9_witness :
    (sampleSkEd.public_key sampleProvider).variant = sampleSkEd.variant ∧
    (publicKeyOfSecretKey sampleProvider sampleSkBls).variant =
      sampleSkBls.variant ∧
    sampleKpBls.public_key.variant = sampleKpBls.variant := by
  exact ⟨(c9_public_key_preserves_scheme sampleProvider sampleSkEd sampleKpEd).1,
    (c9_public_key_preserves_scheme sampleProvider sampleSkBls sampleKpEd).2.1,
    (c9_public_key_preserves_scheme sampleProvider sampleSkEd sampleKpBls).2.2⟩

/-- C10: clone() on every SecretKey and every Keypair returns a value equal
(by the type's equality) to the original; in particular the Ed25519
byte-level reconstruction (from_bytes of to_bytes) always succeeds, and
equality between values of different scheme variants is always false. -/
theorem c10_clone_and_equality (sk sk2 : SecretKey) (kp kp2 : Keypair) :
    sk.clone = some sk ∧
    kp.clone = some kp ∧
    SecretKey.eqImpl sk sk = true ∧
    Keypair.eqImpl kp kp = true ∧
    (sk.variant ≠ sk2.variant → SecretKey.eqImpl sk sk2 = false) ∧
    (kp.variant ≠ kp2.variant → Keypair.eqImpl kp kp2 = false) ∧
    (∀ k : Bytes 32, ed25519SecretFromBytes (ed25519SecretToBytes k) = some k) ∧
    (∀ a b : Bytes 32,
      ed25519KeypairFromBytes (ed25519KeypairToBytes a b) = some (a, b)) := by
  have hsec : ∀ k : Bytes 32,
      ed25519SecretFromBytes (ed25519SecretToBytes k) = some k := by
    intro k
    unfold ed25519SecretFromBytes ed25519SecretToBytes
    rw [dif_pos k.2]
    exact congrArg some (Subtype.ext rfl)
  have hkp : ∀ a b : Bytes 32,
      ed25519KeypairFromBytes (ed25519KeypairToBytes a b) = some (a, b) := by
    intro a b
    unfold ed25519KeypairFromBytes ed25519KeypairToBytes
    have hprop : (a.1 ++ b.1).length = 64 ∧ IsByteList (a.1 ++ b.1) := by
      constructor
      · simp [a.2.1, b.2.1]
      · intro x hx
        rcases List.mem_append.mp hx with h | h
        · exact a.2.2 x h
        · exact b.2.2 x h
    rw [dif_pos hprop]
    have ht : (a.1 ++ b.1).take 32 = a.1 := List.take_left' a.2.1
    have hd : (a.1 ++ b.1).drop 32 = b.1 := List.drop_left' a.2.1
    apply congrArg some
    rw [Prod.mk.injEq]
    exact ⟨Subtype.ext ht, Subtype.ext hd⟩
  refine ⟨?_, ?_, ?_, ?_, ?_, ?_, hsec, hkp⟩
  · cases sk with
    | ed25519 k => simp only [SecretKey.clone, hsec k, Option.map_some']
    | bls k => rfl
    | blsShare k => rfl
  · cases kp with
    | ed25519 a b => simp only [Keypair.clone, hkp a b, Option.map_some']
    | bls a b => rfl
    | blsShare a b => rfl
  · cases sk <;> simp [SecretKey.eqImpl, ed25519SecretToBytes]
  · cases kp <;> simp [Keypair.eqImpl]
  · cases sk <;> cases sk2 <;>
      first
        | (intro h; exact absurd rfl h)
        | (intro _; rfl)
  · cases kp <;> cases kp2 <;>
      first
        | (intro h; exact absurd rfl h)
        | (intro _; rfl)

/-- Witness for C10: clones of the concrete keys equal the originals and
a cross-variant comparison is false. -/
theorem c10_witness :
    sampleSkEd.clone = some sampleSkEd ∧
    sampleKpEd.clone = some sampleKpEd ∧
    SecretKey.eqImpl sampleSkEd sampleSkBls = false := by
  obtain ⟨h1, h2, -, -, h5, -, -, -⟩ :=
    c10_clone_and_equality sampleSkEd sampleSkBls sampleKpEd sampleKpBls
  exact ⟨h1, h2, h5 (by decide)⟩

end SafeNd
